import Mathlib

/-!
Shallow embedding of the bracket-delimited math recognizers and the inline
event resolver of the `micromark-extension-math` fork (files
`math-parens-text.js` and `math-bracket-flow.js`), together with proofs of
the specified properties.

The embedding mirrors the source state machines one state function per
source state function.  The host engine interface (`enter` / `exit` /
`consume`) is modelled by an explicit context: `consume` advances the input
position by one (as the engine does on every `consume` call), `enter` and
`exit` append labelled events carrying the token kind passed in the call and
the position at which the call happened.  Characters are integer code
points; the engine sentinels end-of-input and line-ending are dedicated
constructors (the engine normalises CR/LF/CRLF before this layer).
-/

namespace MathBrackets

/-- A character code as seen by a recognizer: an ordinary code point, or one
of the two engine sentinels (end of input, line ending). -/
inductive Code
  | eof
  | eol
  | ch (n : Nat)
deriving DecidableEq, Repr

def backslash : Code := .ch 92
def leftParenthesis : Code := .ch 40
def rightParenthesis : Code := .ch 41
def leftSquareBracket : Code := .ch 91
def rightSquareBracket : Code := .ch 93
def spaceCode : Code := .ch 32
def tabCode : Code := .ch 9

/-- `markdownLineEnding` from `micromark-util-character`. -/
def markdownLineEnding (c : Code) : Bool := c = Code.eol

/-- `markdownSpace` from `micromark-util-character` (space or tab). -/
def markdownSpace (c : Code) : Bool := c = spaceCode || c = tabCode

/-- Token kinds used by the two recognizers (flat tags, as in the source). -/
inductive TType
  | mathText
  | mathTextSequence
  | mathTextData
  | mathTextPadding
  | space
  | lineEnding
  | whitespace
  | linePrefixT
  | mathFlow
  | mathFlowFence
  | mathFlowFenceSequence
  | mathFlowFenceMeta
  | chunkString
  | mathFlowValue
  | characterEscape
deriving DecidableEq, Repr

/-- One enter/exit occurrence: the phase, the kind passed to the
`enter`/`exit` call, and the input position at which the call happened. -/
inductive Phase
  | enter
  | exit
deriving DecidableEq, Repr

structure Ev where
  ph : Phase
  ty : TType
  pos : Nat
deriving DecidableEq, Repr

/-- The code the engine feeds at position `p` (end of input past the end). -/
def codeAt (input : List Code) (p : Nat) : Code := input.getD p .eof

/-! ## Inline math recognizer (`mathParensText`, `math-parens-text.js`)

Context threaded through the state functions: current position, emitted
events, and the closure variable `foundClosingParen`. -/

structure ICtx where
  pos : Nat
  evs : List Ev
  foundClosingParen : Bool
deriving DecidableEq, Repr

def ienter (t : TType) (c : ICtx) : ICtx :=
  {c with evs := c.evs ++ [⟨Phase.enter, t, c.pos⟩]}

def iexit (t : TType) (c : ICtx) : ICtx :=
  {c with evs := c.evs ++ [⟨Phase.exit, t, c.pos⟩]}

def iconsume (c : ICtx) : ICtx := {c with pos := c.pos + 1}

/-- Outcome of a recognizer run: accepting terminal with its final context,
rejecting terminal, or fuel exhausted. -/
inductive IRes
  | ok (c : ICtx)
  | nok
  | out
deriving DecidableEq, Repr

mutual

/-- State `start`: at the backslash; enter `mathText` and `mathTextSequence`,
consume the backslash. -/
def iStart (input : List Code) : Nat → Code → ICtx → IRes
  | 0, _, _ => .out
  | fuel+1, _, c =>
    let c := ienter .mathText c
    let c := ienter .mathTextSequence c
    let c := iconsume c
    iOpenParenthesis input fuel (codeAt input c.pos) c

/-- State `openParenthesis`: expects `(`, else `nok`. -/
def iOpenParenthesis (input : List Code) : Nat → Code → ICtx → IRes
  | 0, _, _ => .out
  | fuel+1, code, c =>
    if code = leftParenthesis then
      let c := iexit .mathTextSequence (iconsume c)
      iBetween input fuel (codeAt input c.pos) c
    else
      .nok

/-- State `between`: the content loop.  End of input rejects on both source
branches (the `foundClosingParen` test there is dead); a backslash opens a
tentative closing sequence; a space or line ending is its own span; anything
else starts a `mathTextData` span and falls through to `data` with the same
code, exactly as `return data(code)` does. -/
def iBetween (input : List Code) : Nat → Code → ICtx → IRes
  | 0, _, _ => .out
  | fuel+1, code, c =>
    if code = Code.eof then
      .nok
    else if code = backslash then
      let c := iconsume (ienter .mathTextSequence c)
      iCloseParenthesis input fuel (codeAt input c.pos) c
    else if code = spaceCode then
      let c := iexit .space (iconsume (ienter .space c))
      iBetween input fuel (codeAt input c.pos) c
    else if markdownLineEnding code then
      let c := iexit .lineEnding (iconsume (ienter .lineEnding c))
      iBetween input fuel (codeAt input c.pos) c
    else
      iData input fuel code (ienter .mathTextData c)

/-- State `closeParenthesis`: after the backslash of a tentative closing
sequence.  On `)` set `foundClosingParen`, close both spans and accept.
Otherwise the source enters a `mathTextData` token, calls `consume(code)`,
exits `mathTextSequence`, and tail-calls `data(code)` with the same,
already consumed code — transcribed verbatim. -/
def iCloseParenthesis (input : List Code) : Nat → Code → ICtx → IRes
  | 0, _, _ => .out
  | fuel+1, code, c =>
    if code = rightParenthesis then
      let c := {c with foundClosingParen := true}
      let c := iexit .mathText (iexit .mathTextSequence (iconsume c))
      .ok c
    else
      let c := iexit .mathTextSequence (iconsume (ienter .mathTextData c))
      iData input fuel code c

/-- State `data`: consume ordinary characters; end of input, space,
backslash or a line ending closes the data span and returns to `between`
with the same code. -/
def iData (input : List Code) : Nat → Code → ICtx → IRes
  | 0, _, _ => .out
  | fuel+1, code, c =>
    if code = Code.eof ∨ code = spaceCode ∨ code = backslash ∨ markdownLineEnding code then
      iBetween input fuel code (iexit .mathTextData c)
    else
      let c := iconsume c
      iData input fuel (codeAt input c.pos) c

end

/-- Run the inline recognizer from the construct's entry state on `input`
(the engine feeds `eof` past the end of the list). -/
def runMathText (fuel : Nat) (input : List Code) : IRes :=
  iStart input fuel (codeAt input 0) ⟨0, [], false⟩

/-- The construct's `previous` predicate (`math-parens-text.js`): the
recognizer may fire iff the previous code is not a backslash, or the last
recognized event is a character escape. -/
def previousCheck (code : Code) (lastEventType : TType) : Bool :=
  code != backslash || lastEventType == TType.characterEscape

/-! ## Well-nestedness of an event stream

`nestCheck` replays an event stream against a stack: an enter pushes its
kind, an exit must close the most recently opened unmatched enter — of the
same kind, or the replay fails.  A stream is a well-nested bracketing iff
the replay succeeds and ends with an empty stack. -/

def nestStep (st : Option (List TType)) (e : Ev) : Option (List TType) :=
  match st, e.ph with
  | some stack, .enter => some (e.ty :: stack)
  | some stack, .exit =>
    match stack with
    | [] => none
    | t :: rest => if t = e.ty then some rest else none
  | none, _ => none

def nestCheck (evs : List Ev) : Option (List TType) :=
  evs.foldl nestStep (some [])

/-- A well-nested bracketing: replay succeeds and every enter is closed. -/
def wellNested (evs : List Ev) : Bool := nestCheck evs == some []

/-! ## The inline event resolver (`resolveMathText`)

The resolver mutates token *objects* shared between an enter and its exit
event, so the event list is modelled as a list of `(phase, token id)` pairs
together with a store mapping token ids to tokens; mutating a token through
one event is visible through every event holding the same id, exactly as
for a shared JavaScript object. -/

structure RToken where
  type : TType
  start : Nat
  stop : Nat
deriving DecidableEq, Repr

abbrev REv := Phase × Nat

def lookupTok (store : List RToken) (tid : Nat) : RToken :=
  store.getD tid ⟨TType.mathText, 0, 0⟩

/-- `events[i][1]`: the token id held by event `i`. -/
def evTid (evs : List REv) (i : Nat) : Nat := (evs.getD i (Phase.enter, 0)).2

/-- `events[i][1].type`. -/
def evType (evs : List REv) (store : List RToken) (i : Nat) : TType :=
  (lookupTok store (evTid evs i)).type

/-- `events[i][1].type = t` (mutates the shared token object). -/
def setType (store : List RToken) (tid : Nat) (t : TType) : List RToken :=
  store.set tid {lookupTok store tid with type := t}

/-- `events[i][1].end = v`. -/
def setStop (store : List RToken) (tid : Nat) (v : Nat) : List RToken :=
  store.set tid {lookupTok store tid with stop := v}

/-- The search loop of the padding pass:
`while (++index < tailExitIndex) if (events[index][1].type === 'mathTextData') …` —
true iff some event strictly between `index` and `tail` is a data span. -/
def padLoop (evs : List REv) (store : List RToken) (tail : Nat) :
    Nat → Nat → Bool
  | 0, _ => false
  | fuel+1, index =>
    if index + 1 < tail then
      if evType evs store (index + 1) = TType.mathTextData then true
      else padLoop evs store tail fuel (index + 1)
    else false

/-- The merge loop of the resolver, transcribed from the source
(`while (++index <= tailExitIndex) …` with the splice and the index/tail
adjustments done verbatim). -/
def mergeLoop :
    Nat → List REv → List RToken → Nat → Nat → Option Nat → List REv × List RToken
  | 0, evs, store, _, _, _ => (evs, store)
  | fuel+1, evs, store, index, tail, enterOpt =>
    let index := index + 1
    if index > tail then (evs, store)
    else
      match enterOpt with
      | none =>
        if index ≠ tail ∧ evType evs store index ≠ TType.lineEnding then
          mergeLoop fuel evs store index tail (some index)
        else
          mergeLoop fuel evs store index tail none
      | some enter =>
        if index = tail ∨ evType evs store index = TType.lineEnding then
          let store := setType store (evTid evs enter) TType.mathTextData
          if index ≠ enter + 2 then
            let store := setStop store (evTid evs enter) (lookupTok store (evTid evs (index - 1))).stop
            let evs := evs.take (enter + 2) ++ evs.drop index
            mergeLoop fuel evs store (enter + 2) (tail - (index - enter - 2)) none
          else
            mergeLoop fuel evs store index tail none
        else
          mergeLoop fuel evs store index tail (some enter)

/-- `resolveMathText` from `math-parens-text.js`: the padding pass (retag the
edge spans when both are a space/line ending and a data span lies strictly
between, then narrow the window by one span each side), followed by the
merge pass over the window. -/
def resolveMathText (evs : List REv) (store : List RToken) :
    List REv × List RToken :=
  let tail0 := evs.length - 4
  let head0 := 3
  if (evType evs store head0 = TType.lineEnding ∨ evType evs store head0 = TType.space) ∧
     (evType evs store tail0 = TType.lineEnding ∨ evType evs store tail0 = TType.space) ∧
     padLoop evs store tail0 evs.length head0 then
    let store := setType store (evTid evs tail0) TType.mathTextPadding
    let store := setType store (evTid evs head0) TType.mathTextPadding
    mergeLoop (evs.length + 8) evs store (head0 + 2 - 1) (tail0 - 2 + 1) none
  else
    mergeLoop (evs.length + 8) evs store (head0 - 1) (tail0 + 1) none

/-! ### Canonical accepted inline event lists

An accepted inline run that never takes the degrade branch produces: enter
`mathText`, the opening fence pair, one enter/exit pair per interior leaf
span (space, line ending or data), the closing fence pair, exit `mathText`.
With token ids assigned in order of first appearance the container is id
`0`, the opening fence id `1`, the leaves ids `2, …, n+1`, the closing
fence id `n+2`. -/

/-- The enter/exit event pair of each leaf span, in order. -/
def leafPairsP (pairs : List (Nat × RToken)) : List REv :=
  pairs.flatMap fun p => [(Phase.enter, p.1), (Phase.exit, p.1)]

/-- The event-list shape of an accepted inline run: container `a0`,
opening fence `a1`, the interior leaf pairs, closing fence `b`. -/
def mkShape (a0 a1 b : Nat) (pairs : List (Nat × RToken)) : List REv :=
  [(Phase.enter, a0), (Phase.enter, a1), (Phase.exit, a1)] ++ leafPairsP pairs ++
    [(Phase.enter, b), (Phase.exit, b), (Phase.exit, a0)]

/-- Consecutive token ids starting at `k` for a list of interior leaves. -/
def canonPairsFrom (k : Nat) : List RToken → List (Nat × RToken)
  | [] => []
  | t :: ts => (k, t) :: canonPairsFrom (k + 1) ts

/-- Canonical token ids for the interior leaves: ids `2, …, n + 1` in
order of appearance (the container is `0`, the opening fence `1`, the
closing fence `n + 2`). -/
def canonPairs (leaves : List RToken) : List (Nat × RToken) :=
  canonPairsFrom 2 leaves

def canonStore (leaves : List RToken) : List RToken :=
  ⟨TType.mathText, 0, 0⟩ :: ⟨TType.mathTextSequence, 0, 0⟩ ::
    (leaves ++ [⟨TType.mathTextSequence, 0, 0⟩])

/-- Resolve the canonical accepted event list over interior leaves. -/
def resolveOn (leaves : List RToken) : List REv × List RToken :=
  resolveMathText (mkShape 0 1 (leaves.length + 2) (canonPairs leaves))
    (canonStore leaves)

/-- Forget ids: the observable event list (phase and token fields). -/
def renderEvs (evs : List REv) (store : List RToken) : List (Phase × RToken) :=
  evs.map fun e => (e.1, lookupTok store e.2)

/-! ### Functional description of the resolver (from the specified
behaviour, for comparison with the transcribed loops). -/

def isEdgeType (t : TType) : Bool := t == TType.lineEnding || t == TType.space

def junkPair : Nat × RToken := (0, ⟨TType.mathText, 0, 0⟩)

/-- Modelled from the spec: both edge interior spans are a space or line
ending and at least one `mathTextData` span lies strictly between them. -/
def padCondSpec (pairs : List (Nat × RToken)) : Bool :=
  2 ≤ pairs.length &&
    isEdgeType (pairs.headD junkPair).2.type &&
    isEdgeType (pairs.getLastD junkPair).2.type &&
    ((pairs.drop 1).dropLast.any fun p => p.2.type == TType.mathTextData)

lemma length_dropWhile_le (p : α → Bool) (l : List α) :
    (l.dropWhile p).length ≤ l.length := by
  induction l with
  | nil => simp
  | cons a l ih =>
    rw [List.dropWhile_cons]
    split <;> simp <;> omega

/-- Modelled from the spec: coalesce every maximal run of adjacent
non-line-ending spans into a single `mathTextData` span from the run's
first start to the run's last end, keeping the run's first token id; line
endings are untouched separators. -/
def mergeRunsP : List (Nat × RToken) → List (Nat × RToken)
  | [] => []
  | (t, tok) :: rest =>
    if tok.type = TType.lineEnding then
      (t, tok) :: mergeRunsP rest
    else
      let run := (t, tok) :: rest.takeWhile fun p => p.2.type ≠ TType.lineEnding
      (t, ⟨TType.mathTextData, tok.start, (run.getLastD junkPair).2.stop⟩) ::
        mergeRunsP (rest.dropWhile fun p => p.2.type ≠ TType.lineEnding)
termination_by l => l.length
decreasing_by
  all_goals simp only [List.length_cons]
  · omega
  · have := length_dropWhile_le (fun p => decide (p.2.type ≠ TType.lineEnding)) rest
    omega

/-- Modelled from the spec: pass 1 (edge padding) then pass 2 (run
merging) on the interior leaf spans. -/
def resolveSpecP (pairs : List (Nat × RToken)) : List (Nat × RToken) :=
  if padCondSpec pairs then
    let h := pairs.headD junkPair
    let l := pairs.getLastD junkPair
    (h.1, {h.2 with type := TType.mathTextPadding}) ::
      (mergeRunsP ((pairs.drop 1).dropLast) ++
        [(l.1, {l.2 with type := TType.mathTextPadding})])
  else
    mergeRunsP pairs

/-! ## Block math recognizer (`mathBracketFlow`, `math-bracket-flow.js`)

External collaborators of the recognizer, injected as an environment: the
input, the `interrupt` flag of the tokenize context, the size of the
line-prefix tail (`initialSize`), whether indented code is disabled
(`parser.constructs.disable.null.includes('codeIndented')`), the laziness
table (the set of line numbers the enclosing container marks lazy), and
the line number of the opening line. -/

structure BEnv where
  input : List Code
  interrupt : Bool
  initialSize : Nat
  codeIndentedOff : Bool
  lazy : List Nat
  startLine : Nat
deriving DecidableEq, Repr

/-- Context: position, current line (the engine increments it when a line
ending is consumed), emitted events, and the closure variable
`foundClosingBracket` — which, being a plain closure variable, is *not*
restored when a speculative attempt is rolled back. -/
structure BCtx where
  pos : Nat
  line : Nat
  evs : List Ev
  found : Bool
deriving DecidableEq, Repr

def benter (t : TType) (c : BCtx) : BCtx :=
  {c with evs := c.evs ++ [⟨Phase.enter, t, c.pos⟩]}

def bexit (t : TType) (c : BCtx) : BCtx :=
  {c with evs := c.evs ++ [⟨Phase.exit, t, c.pos⟩]}

def bconsume (code : Code) (c : BCtx) : BCtx :=
  {c with pos := c.pos + 1,
          line := if markdownLineEnding code then c.line + 1 else c.line}

inductive BRes
  | ok (c : BCtx)
  | nok
  | out
deriving DecidableEq, Repr

/-- `tokenizeNonLazyContinuation`: succeed without consuming at end of
input; otherwise consume the line ending as its own span and succeed iff
the new line is not marked lazy.  On failure the caller (an `attempt`)
rolls every effect back. -/
def runNonLazy (env : BEnv) (code : Code) (c : BCtx) : Option BCtx :=
  if code = Code.eof then some c
  else
    let c := bexit .lineEnding (bconsume code (benter .lineEnding c))
    if env.lazy.contains c.line then none else some c

/-- `size++ < limit` of `factorySpace` (`limit = max ? max - 1 : ∞`). -/
def underLimit (max : Option Nat) (size : Nat) : Bool :=
  match max with
  | none => true
  | some m => size < m - 1

/-- Result of the speculative closing-fence attempt: commit, or reject
carrying the value of the non-rolled-back `foundClosingBracket` flag. -/
inductive CFRes
  | ok (c : BCtx)
  | nok (found : Bool)
  | out
deriving DecidableEq, Repr

/-- Continuation selector for `factorySpace` inside the closing-fence
tokenizer. -/
inductive CFTgt
  | beforeSeqClose
  | afterSeqClose
deriving DecidableEq, Repr

mutual

/-- `factorySpace` entry state inside `tokenizeClosingFence`. -/
def cfFsStart (env : BEnv) :
    Nat → CFTgt → TType → Option Nat → Code → Bool → BCtx → CFRes
  | 0, _, _, _, _, _, _ => .out
  | fuel+1, tgt, t, max, code, foundB, c =>
    if markdownSpace code then
      cfFsPrefix env fuel tgt t max 0 code foundB (benter t c)
    else
      cfDispatch env fuel tgt code foundB c

/-- `factorySpace` prefix loop inside `tokenizeClosingFence`. -/
def cfFsPrefix (env : BEnv) :
    Nat → CFTgt → TType → Option Nat → Nat → Code → Bool → BCtx → CFRes
  | 0, _, _, _, _, _, _, _ => .out
  | fuel+1, tgt, t, max, size, code, foundB, c =>
    if markdownSpace code ∧ underLimit max size then
      let c := bconsume code c
      cfFsPrefix env fuel tgt t max (size + 1) (codeAt env.input c.pos) foundB c
    else
      cfDispatch env fuel tgt code foundB (bexit t c)

def cfDispatch (env : BEnv) : Nat → CFTgt → Code → Bool → BCtx → CFRes
  | 0, _, _, _, _ => .out
  | fuel+1, .beforeSeqClose, code, foundB, c =>
    cfBeforeSequenceClose env fuel code foundB c
  | fuel+1, .afterSeqClose, code, foundB, c =>
    cfAfterSequenceClose env fuel code foundB c

/-- `beforeSequenceClose`: open the closing fence spans. -/
def cfBeforeSequenceClose (env : BEnv) : Nat → Code → Bool → BCtx → CFRes
  | 0, _, _, _ => .out
  | fuel+1, code, foundB, c =>
    let c := benter .mathFlowFenceSequence (benter .mathFlowFence c)
    cfSequenceClose env fuel code foundB c

/-- `sequenceClose`: a single backslash then `]`; sets the outer
`foundClosingBracket` when the `]` is matched. -/
def cfSequenceClose (env : BEnv) : Nat → Code → Bool → BCtx → CFRes
  | 0, _, _, _ => .out
  | fuel+1, code, foundB, c =>
    if code = backslash ∧ foundB = false then
      let c := bconsume code c
      cfSequenceClose env fuel (codeAt env.input c.pos) true c
    else if code = rightSquareBracket ∧ foundB = true then
      let c := {c with found := true}
      let c := bexit .mathFlowFenceSequence (bconsume code c)
      cfFsStart env fuel .afterSeqClose .whitespace none (codeAt env.input c.pos) foundB c
    else
      .nok c.found

/-- `afterSequenceClose`: only an eol or eof may follow. -/
def cfAfterSequenceClose (env : BEnv) : Nat → Code → Bool → BCtx → CFRes
  | 0, _, _, _ => .out
  | fuel+1, code, _, c =>
    if code = Code.eof ∨ markdownLineEnding code then
      .ok (bexit .mathFlowFence c)
    else
      .nok c.found

end

/-- `tokenizeClosingFence` entry: optional leading whitespace (at most one
tab stop unless indented code is disabled), then the closing sequence. -/
def runClosingFence (env : BEnv) (fuel : Nat) (code : Code) (c : BCtx) : CFRes :=
  cfFsStart env fuel .beforeSeqClose .linePrefixT
    (if env.codeIndentedOff then none else some 4) code false c

/-- Continuation selector for `factorySpace` in the main flow tokenizer. -/
inductive BTgt
  | toMetaBefore
  | toBeforeContentChunk
deriving DecidableEq, Repr

mutual

/-- `start`: at the backslash of the opening fence. -/
def bStart (env : BEnv) : Nat → Code → BCtx → BRes
  | 0, _, _ => .out
  | fuel+1, code, c =>
    let c := benter .mathFlowFenceSequence (benter .mathFlowFence (benter .mathFlow c))
    let c := bconsume code c
    bOpenBracket env fuel (codeAt env.input c.pos) c

/-- `openBracket`: expects `[`, then optional whitespace before the meta. -/
def bOpenBracket (env : BEnv) : Nat → Code → BCtx → BRes
  | 0, _, _ => .out
  | fuel+1, code, c =>
    if code = leftSquareBracket then
      let c := bexit .mathFlowFenceSequence (bconsume code c)
      bFsStart env fuel .toMetaBefore .whitespace none (codeAt env.input c.pos) c
    else
      .nok

/-- `factorySpace` entry state in the main tokenizer. -/
def bFsStart (env : BEnv) : Nat → BTgt → TType → Option Nat → Code → BCtx → BRes
  | 0, _, _, _, _, _ => .out
  | fuel+1, tgt, t, max, code, c =>
    if markdownSpace code then
      bFsPrefix env fuel tgt t max 0 code (benter t c)
    else
      bDispatch env fuel tgt code c

/-- `factorySpace` prefix loop in the main tokenizer. -/
def bFsPrefix (env : BEnv) : Nat → BTgt → TType → Option Nat → Nat → Code → BCtx → BRes
  | 0, _, _, _, _, _, _ => .out
  | fuel+1, tgt, t, max, size, code, c =>
    if markdownSpace code ∧ underLimit max size then
      let c := bconsume code c
      bFsPrefix env fuel tgt t max (size + 1) (codeAt env.input c.pos) c
    else
      bDispatch env fuel tgt code (bexit t c)

def bDispatch (env : BEnv) : Nat → BTgt → Code → BCtx → BRes
  | 0, _, _, _ => .out
  | fuel+1, .toMetaBefore, code, c => bMetaBefore env fuel code c
  | fuel+1, .toBeforeContentChunk, code, c => bBeforeContentChunk env fuel code c

/-- `metaBefore`: at the first meta character of the opening line. -/
def bMetaBefore (env : BEnv) : Nat → Code → BCtx → BRes
  | 0, _, _ => .out
  | fuel+1, code, c =>
    if code = Code.eof ∨ markdownLineEnding code then
      bMetaAfter env fuel code c
    else
      let c := benter .chunkString (benter .mathFlowFenceMeta c)
      bMeta env fuel code c

/-- `meta`: the metadata loop; a `]` anywhere in it rejects the whole
construct. -/
def bMeta (env : BEnv) : Nat → Code → BCtx → BRes
  | 0, _, _ => .out
  | fuel+1, code, c =>
    if code = Code.eof ∨ markdownLineEnding code then
      let c := bexit .mathFlowFenceMeta (bexit .chunkString c)
      bMetaAfter env fuel code c
    else if code = rightSquareBracket then
      .nok
    else
      let c := bconsume code c
      bMeta env fuel (codeAt env.input c.pos) c

/-- `metaAfter`: close the opening fence; an interrupting construct
accepts immediately, otherwise attempt the non-lazy continuation. -/
def bMetaAfter (env : BEnv) : Nat → Code → BCtx → BRes
  | 0, _, _ => .out
  | fuel+1, code, c =>
    let c := bexit .mathFlowFence c
    if env.interrupt then
      .ok c
    else
      match runNonLazy env code c with
      | some c1 => bBeforeNonLazyContinuation env fuel (codeAt env.input c1.pos) c1
      | none => bAfter env fuel code c

/-- `beforeNonLazyContinuation`: attempt the closing fence; on failure the
attempt is rolled back (except `foundClosingBracket`) and the line is
content. -/
def bBeforeNonLazyContinuation (env : BEnv) : Nat → Code → BCtx → BRes
  | 0, _, _ => .out
  | fuel+1, code, c =>
    match runClosingFence env fuel code c with
    | .ok c1 => bAfter env fuel (codeAt env.input c1.pos) c1
    | .nok fd => bContentStart env fuel code {c with found := fd}
    | .out => .out

/-- `contentStart`: strip up to the opening fence's indentation. -/
def bContentStart (env : BEnv) : Nat → Code → BCtx → BRes
  | 0, _, _ => .out
  | fuel+1, code, c =>
    if env.initialSize ≠ 0 then
      bFsStart env fuel .toBeforeContentChunk .linePrefixT (some (env.initialSize + 1)) code c
    else
      bBeforeContentChunk env fuel code c

/-- `beforeContentChunk`: dispatch on eof / line ending / content. -/
def bBeforeContentChunk (env : BEnv) : Nat → Code → BCtx → BRes
  | 0, _, _ => .out
  | fuel+1, code, c =>
    if code = Code.eof then
      bAfter env fuel code c
    else if markdownLineEnding code then
      match runNonLazy env code c with
      | some c1 => bBeforeNonLazyContinuation env fuel (codeAt env.input c1.pos) c1
      | none => bAfter env fuel code c
    else
      bContentChunk env fuel code (benter .mathFlowValue c)

/-- `contentChunk`: one content span per line. -/
def bContentChunk (env : BEnv) : Nat → Code → BCtx → BRes
  | 0, _, _ => .out
  | fuel+1, code, c =>
    if code = Code.eof ∨ markdownLineEnding code then
      bBeforeContentChunk env fuel code (bexit .mathFlowValue c)
    else
      let c := bconsume code c
      bContentChunk env fuel (codeAt env.input c.pos) c

/-- `after`: end of input without a recorded closing bracket rejects;
anything else closes `mathFlow` and accepts. -/
def bAfter (env : BEnv) : Nat → Code → BCtx → BRes
  | 0, _, _ => .out
  | fuel+1, code, c =>
    if code = Code.eof ∧ c.found = false then
      .nok
    else
      .ok (bexit .mathFlow c)

end

/-- Run the block recognizer from its entry state. -/
def runMathBracketFlow (env : BEnv) (fuel : Nat) : BRes :=
  bStart env fuel (codeAt env.input 0) ⟨0, env.startLine, [], false⟩

/-! ## Basic context lemmas -/

@[simp] lemma ienter_evs (t : TType) (c : ICtx) :
    (ienter t c).evs = c.evs ++ [⟨Phase.enter, t, c.pos⟩] := rfl

@[simp] lemma iexit_evs (t : TType) (c : ICtx) :
    (iexit t c).evs = c.evs ++ [⟨Phase.exit, t, c.pos⟩] := rfl

@[simp] lemma ienter_pos (t : TType) (c : ICtx) : (ienter t c).pos = c.pos := rfl

@[simp] lemma iexit_pos (t : TType) (c : ICtx) : (iexit t c).pos = c.pos := rfl

@[simp] lemma iconsume_pos (c : ICtx) : (iconsume c).pos = c.pos + 1 := rfl

@[simp] lemma iconsume_evs (c : ICtx) : (iconsume c).evs = c.evs := rfl

@[simp] lemma benter_evs (t : TType) (c : BCtx) :
    (benter t c).evs = c.evs ++ [⟨Phase.enter, t, c.pos⟩] := rfl

@[simp] lemma bexit_evs (t : TType) (c : BCtx) :
    (bexit t c).evs = c.evs ++ [⟨Phase.exit, t, c.pos⟩] := rfl

@[simp] lemma benter_pos (t : TType) (c : BCtx) : (benter t c).pos = c.pos := rfl

@[simp] lemma bexit_pos (t : TType) (c : BCtx) : (bexit t c).pos = c.pos := rfl

@[simp] lemma benter_found (t : TType) (c : BCtx) : (benter t c).found = c.found := rfl

@[simp] lemma bexit_found (t : TType) (c : BCtx) : (bexit t c).found = c.found := rfl

@[simp] lemma bconsume_pos (code : Code) (c : BCtx) :
    (bconsume code c).pos = c.pos + 1 := rfl

@[simp] lemma bconsume_evs (code : Code) (c : BCtx) :
    (bconsume code c).evs = c.evs := rfl

@[simp] lemma bconsume_found (code : Code) (c : BCtx) :
    (bconsume code c).found = c.found := rfl

/-- Reading past the end of the input yields the end-of-input sentinel. -/
lemma codeAt_eof {input : List Code} {p : Nat} (h : input.length ≤ p) :
    codeAt input p = Code.eof := by
  simp [codeAt, List.getD]
  rw [List.getElem?_eq_none (by omega)]
  rfl

/-! ## Claim theorems -/

/-- Claim C3, counterexample: the claim says the `previous` predicate
returns `false` when the previous character is a backslash produced by a
character escape; the source predicate returns `true` there (it fires). -/
theorem c3_previous_counterexample :
    previousCheck backslash TType.characterEscape = true := by decide

/-- Claim C3, amended: the inline recognizer's `previous` predicate
permits firing exactly when the previous character is not a backslash or
is a backslash produced by a character escape; it rejects firing only on
an unescaped previous backslash. -/
theorem c3_previous_amended :
    (∀ t : TType, previousCheck backslash t = (t == TType.characterEscape)) ∧
    (∀ (c : Code) (t : TType), c ≠ backslash → previousCheck c t = true) := by
  refine ⟨fun t => ?_, fun c t hc => ?_⟩
  · simp [previousCheck]
  · simp [previousCheck, hc]

/-- Claim C3, witness for the amended theorem. -/
theorem c3_previous_amended_witness :
    previousCheck (Code.ch 97) TType.mathText = true :=
  c3_previous_amended.2 (Code.ch 97) TType.mathText (by decide)

/-- Claim C2: evaluation of the degrade-to-data branch at concrete inputs.
On `\(\a\)` the recognizer rejects: consuming the code both in
`closeParenthesis` and again in `data` (the source tail-calls
`data(code)` after `consume(code)`) advances two positions for one
character, so the closing backslash is skipped.  On `\(\ab\)` it accepts,
with the `b` never examined, and the emitted stream shows the
`mathTextData` span opening at position 3 — after the backslash at
position 2, which stays inside the `mathTextSequence` span — and that
span's exit crossing the sequence's exit. -/
theorem c2_degrade_eval :
    runMathText 50 [backslash, leftParenthesis, backslash, Code.ch 97,
      backslash, rightParenthesis] = .nok ∧
    runMathText 50 [backslash, leftParenthesis, backslash, Code.ch 97, Code.ch 98,
      backslash, rightParenthesis] =
      .ok ⟨7, [⟨Phase.enter, .mathText, 0⟩, ⟨Phase.enter, .mathTextSequence, 0⟩,
        ⟨Phase.exit, .mathTextSequence, 2⟩, ⟨Phase.enter, .mathTextSequence, 2⟩,
        ⟨Phase.enter, .mathTextData, 3⟩, ⟨Phase.exit, .mathTextSequence, 4⟩,
        ⟨Phase.exit, .mathTextData, 5⟩, ⟨Phase.enter, .mathTextSequence, 5⟩,
        ⟨Phase.exit, .mathTextSequence, 7⟩, ⟨Phase.exit, .mathText, 7⟩], true⟩ := by
  constructor <;> decide

/-! ### Event count of accepted inline runs (for C10) -/

lemma inline_ok_evs_growth (input : List Code) :
    ∀ fuel : Nat,
      (∀ code c c', iStart input fuel code c = .ok c' → c.evs.length + 6 ≤ c'.evs.length) ∧
      (∀ code c c', iOpenParenthesis input fuel code c = .ok c' → c.evs.length + 4 ≤ c'.evs.length) ∧
      (∀ code c c', iBetween input fuel code c = .ok c' → c.evs.length + 3 ≤ c'.evs.length) ∧
      (∀ code c c', iCloseParenthesis input fuel code c = .ok c' → c.evs.length + 2 ≤ c'.evs.length) ∧
      (∀ code c c', iData input fuel code c = .ok c' → c.evs.length + 3 ≤ c'.evs.length) := by
  intro fuel
  induction fuel with
  | zero =>
    refine ⟨?_, ?_, ?_, ?_, ?_⟩ <;> intro code c c' h <;>
      simp [iStart, iOpenParenthesis, iBetween, iCloseParenthesis, iData] at h
  | succ f ih =>
    obtain ⟨ihS, ihO, ihB, ihC, ihD⟩ := ih
    refine ⟨?_, ?_, ?_, ?_, ?_⟩ <;> intro code c c' h
    · simp only [iStart] at h
      have := ihO _ _ _ h
      simp at this
      omega
    · simp only [iOpenParenthesis] at h
      split at h
      · have := ihB _ _ _ h
        simp at this
        omega
      · simp at h
    · simp only [iBetween] at h
      split at h
      · simp at h
      · split at h
        · have := ihC _ _ _ h
          simp at this
          omega
        · split at h
          · have := ihB _ _ _ h
            simp at this
            omega
          · split at h
            · have := ihB _ _ _ h
              simp at this
              omega
            · have := ihD _ _ _ h
              simp at this
              omega
    · simp only [iCloseParenthesis] at h
      split at h
      · simp only [IRes.ok.injEq] at h
        subst h
        simp
      · have := ihD _ _ _ h
        simp at this
        omega
    · simp only [iData] at h
      split at h
      · have := ihB _ _ _ h
        simp at this
        omega
      · have := ihD _ _ _ h
        simp at this
        omega

/-- Claim C10: every accepted inline run emits at least six events (enter
and exit of `mathText` plus the opening and closing `mathTextSequence`
pairs), so the resolver's fixed accesses at indices `3` and `length - 4`
are in bounds on an accepted run's events. -/
theorem c10_accepted_inline_min_events (fuel : Nat) (input : List Code) (c : ICtx)
    (h : runMathText fuel input = .ok c) :
    6 ≤ c.evs.length ∧ 3 < c.evs.length ∧ c.evs.length - 4 < c.evs.length := by
  have := (inline_ok_evs_growth input fuel).1 _ _ _ h
  simp at this
  exact ⟨by omega, by omega, by omega⟩

def c10ctx : ICtx :=
  ⟨4, [⟨Phase.enter, .mathText, 0⟩, ⟨Phase.enter, .mathTextSequence, 0⟩,
    ⟨Phase.exit, .mathTextSequence, 2⟩, ⟨Phase.enter, .mathTextSequence, 2⟩,
    ⟨Phase.exit, .mathTextSequence, 4⟩, ⟨Phase.exit, .mathText, 4⟩], true⟩

/-- Claim C10, witness: the accepted run on `\(\)`. -/
theorem c10_accepted_inline_min_events_witness :
    6 ≤ c10ctx.evs.length ∧ 3 < c10ctx.evs.length ∧
      c10ctx.evs.length - 4 < c10ctx.evs.length :=
  c10_accepted_inline_min_events 20
    [backslash, leftParenthesis, backslash, rightParenthesis] c10ctx (by decide)

/-! ### End of input always rejects the block recognizer when it is not
interrupting and no closing bracket was recorded (for C4) -/

lemma block_ok_at_end_found (env : BEnv) (henv : env.interrupt = false) :
    ∀ fuel : Nat,
      (∀ code c c', code = codeAt env.input c.pos →
        bStart env fuel code c = .ok c' → env.input.length ≤ c'.pos → c'.found = true) ∧
      (∀ code c c', code = codeAt env.input c.pos →
        bOpenBracket env fuel code c = .ok c' → env.input.length ≤ c'.pos → c'.found = true) ∧
      (∀ tgt t max code c c', code = codeAt env.input c.pos →
        bFsStart env fuel tgt t max code c = .ok c' → env.input.length ≤ c'.pos → c'.found = true) ∧
      (∀ tgt t max size code c c', code = codeAt env.input c.pos →
        bFsPrefix env fuel tgt t max size code c = .ok c' → env.input.length ≤ c'.pos → c'.found = true) ∧
      (∀ tgt code c c', code = codeAt env.input c.pos →
        bDispatch env fuel tgt code c = .ok c' → env.input.length ≤ c'.pos → c'.found = true) ∧
      (∀ code c c', code = codeAt env.input c.pos →
        bMetaBefore env fuel code c = .ok c' → env.input.length ≤ c'.pos → c'.found = true) ∧
      (∀ code c c', code = codeAt env.input c.pos →
        bMeta env fuel code c = .ok c' → env.input.length ≤ c'.pos → c'.found = true) ∧
      (∀ code c c', code = codeAt env.input c.pos →
        bMetaAfter env fuel code c = .ok c' → env.input.length ≤ c'.pos → c'.found = true) ∧
      (∀ code c c', code = codeAt env.input c.pos →
        bBeforeNonLazyContinuation env fuel code c = .ok c' → env.input.length ≤ c'.pos → c'.found = true) ∧
      (∀ code c c', code = codeAt env.input c.pos →
        bContentStart env fuel code c = .ok c' → env.input.length ≤ c'.pos → c'.found = true) ∧
      (∀ code c c', code = codeAt env.input c.pos →
        bBeforeContentChunk env fuel code c = .ok c' → env.input.length ≤ c'.pos → c'.found = true) ∧
      (∀ code c c', code = codeAt env.input c.pos →
        bContentChunk env fuel code c = .ok c' → env.input.length ≤ c'.pos → c'.found = true) ∧
      (∀ code c c', code = codeAt env.input c.pos →
        bAfter env fuel code c = .ok c' → env.input.length ≤ c'.pos → c'.found = true) := by
  intro fuel
  induction fuel with
  | zero =>
    refine ⟨?_, ?_, ?_, ?_, ?_, ?_, ?_, ?_, ?_, ?_, ?_, ?_, ?_⟩ <;> intros <;>
      simp_all [bStart, bOpenBracket, bFsStart, bFsPrefix, bDispatch, bMetaBefore, bMeta,
        bMetaAfter, bBeforeNonLazyContinuation, bContentStart, bBeforeContentChunk,
        bContentChunk, bAfter]
  | succ f ih =>
    obtain ⟨ihStart, ihOpen, ihFsS, ihFsP, ihDisp, ihMetaB, ihMeta, ihMetaA,
      ihBNL, ihCS, ihBCC, ihCC, ihAfter⟩ := ih
    refine ⟨?_, ?_, ?_, ?_, ?_, ?_, ?_, ?_, ?_, ?_, ?_, ?_, ?_⟩
    · intro code c c' hcode h hlen
      simp only [bStart] at h
      exact ihOpen _ _ _ rfl h hlen
    · intro code c c' hcode h hlen
      simp only [bOpenBracket] at h
      split at h
      · exact ihFsS _ _ _ _ _ _ rfl h hlen
      · simp at h
    · intro tgt t max code c c' hcode h hlen
      simp only [bFsStart] at h
      split at h
      · exact ihFsP _ _ _ _ _ _ _ (by simpa using hcode) h hlen
      · exact ihDisp _ _ _ _ (by simpa using hcode) h hlen
    · intro tgt t max size code c c' hcode h hlen
      simp only [bFsPrefix] at h
      split at h
      · exact ihFsP _ _ _ _ _ _ _ rfl h hlen
      · exact ihDisp _ _ _ _ (by simpa using hcode) h hlen
    · intro tgt code c c' hcode h hlen
      match tgt with
      | .toMetaBefore =>
        simp only [bDispatch] at h
        exact ihMetaB _ _ _ hcode h hlen
      | .toBeforeContentChunk =>
        simp only [bDispatch] at h
        exact ihBCC _ _ _ hcode h hlen
    · intro code c c' hcode h hlen
      simp only [bMetaBefore] at h
      split at h
      · exact ihMetaA _ _ _ hcode h hlen
      · exact ihMeta _ _ _ (by simpa using hcode) h hlen
    · intro code c c' hcode h hlen
      simp only [bMeta] at h
      split at h
      · exact ihMetaA _ _ _ (by simpa using hcode) h hlen
      · split at h
        · simp at h
        · exact ihMeta _ _ _ rfl h hlen
    · intro code c c' hcode h hlen
      simp only [bMetaAfter, henv] at h
      simp only [if_false, Bool.false_eq_true] at h
      rcases hnl : runNonLazy env code (bexit .mathFlowFence c) with _ | c1
      · rw [hnl] at h
        exact ihAfter _ _ _ (by simpa using hcode) h hlen
      · rw [hnl] at h
        exact ihBNL _ _ _ rfl h hlen
    · intro code c c' hcode h hlen
      simp only [bBeforeNonLazyContinuation] at h
      rcases hcf : runClosingFence env f code c with c1 | fd | _
      · rw [hcf] at h
        exact ihAfter _ _ _ rfl h hlen
      · rw [hcf] at h
        exact ihCS _ _ _ (by simpa using hcode) h hlen
      · rw [hcf] at h
        simp at h
    · intro code c c' hcode h hlen
      simp only [bContentStart] at h
      split at h
      · exact ihFsS _ _ _ _ _ _ hcode h hlen
      · exact ihBCC _ _ _ hcode h hlen
    · intro code c c' hcode h hlen
      simp only [bBeforeContentChunk] at h
      split at h
      · exact ihAfter _ _ _ hcode h hlen
      · split at h
        · rcases hnl : runNonLazy env code c with _ | c1
          · rw [hnl] at h
            exact ihAfter _ _ _ hcode h hlen
          · rw [hnl] at h
            exact ihBNL _ _ _ rfl h hlen
        · exact ihCC _ _ _ (by simpa using hcode) h hlen
    · intro code c c' hcode h hlen
      simp only [bContentChunk] at h
      split at h
      · exact ihBCC _ _ _ (by simpa using hcode) h hlen
      · exact ihCC _ _ _ rfl h hlen
    · intro code c c' hcode h hlen
      simp only [bAfter] at h
      split at h
      · simp at h
      · rename_i hcond
        simp only [BRes.ok.injEq] at h
        subst h
        simp only [bexit_found, bexit_pos] at hlen ⊢
        rcases Bool.eq_false_or_eq_true c.found with hf | hf
        · exact hf
        · exfalso
          have : code = Code.eof := by rw [hcode]; exact codeAt_eof hlen
          exact hcond ⟨this, hf⟩

/-- Claim C4, counterexample: on the interrupt path the block recognizer
reaches `ok` at end of input with `foundClosingBracket` still false —
input `\[` alone, with `interrupt` set, accepts at position 2 = the input
length, contradicting the claim that end of input accepts only after a
recorded closing bracket. -/
theorem c4_counterexample :
    runMathBracketFlow ⟨[backslash, leftSquareBracket], true, 0, false, [], 1⟩ 60 =
      .ok ⟨2, 1, [⟨Phase.enter, .mathFlow, 0⟩, ⟨Phase.enter, .mathFlowFence, 0⟩,
        ⟨Phase.enter, .mathFlowFenceSequence, 0⟩, ⟨Phase.exit, .mathFlowFenceSequence, 2⟩,
        ⟨Phase.exit, .mathFlowFence, 2⟩], false⟩ := by
  decide

/-- Claim C4, amended: the inline recognizer rejects whenever end of input
is fed to any of its non-entry states (there is no fallback to plain
text); and, provided the block recognizer is not interrupting, it reaches
`ok` with the input exhausted only if `foundClosingBracket` was recorded —
when interrupting, the block recognizer can accept at end of input with no
closing bracket (see the counterexample). -/
theorem c4_amended :
    (∀ (input : List Code) (f : Nat) (c : ICtx),
        iOpenParenthesis input (f+1) Code.eof c = .nok ∧
        iBetween input (f+1) Code.eof c = .nok ∧
        iData input (f+2) Code.eof c = .nok ∧
        iCloseParenthesis input (f+3) Code.eof c = .nok) ∧
    (∀ (env : BEnv) (fuel : Nat) (c : BCtx),
        env.interrupt = false →
        runMathBracketFlow env fuel = .ok c →
        env.input.length ≤ c.pos →
        c.found = true) := by
  constructor
  · intro input f c
    refine ⟨by simp [iOpenParenthesis, leftParenthesis], by simp [iBetween], ?_, ?_⟩
    · simp [iData, iBetween]
    · simp [iCloseParenthesis, rightParenthesis, iData, iBetween]
  · intro env fuel c henv h hlen
    simp only [runMathBracketFlow] at h
    exact (block_ok_at_end_found env henv fuel).1 (codeAt env.input 0)
      ⟨0, env.startLine, [], false⟩ c rfl h hlen

def c4env : BEnv := ⟨[backslash, leftSquareBracket, Code.eol, backslash, rightSquareBracket],
  false, 0, false, [], 1⟩

def c4ctx : BCtx :=
  ⟨5, 2, [⟨Phase.enter, .mathFlow, 0⟩, ⟨Phase.enter, .mathFlowFence, 0⟩,
    ⟨Phase.enter, .mathFlowFenceSequence, 0⟩, ⟨Phase.exit, .mathFlowFenceSequence, 2⟩,
    ⟨Phase.exit, .mathFlowFence, 2⟩, ⟨Phase.enter, .lineEnding, 2⟩,
    ⟨Phase.exit, .lineEnding, 3⟩, ⟨Phase.enter, .mathFlowFence, 3⟩,
    ⟨Phase.enter, .mathFlowFenceSequence, 3⟩, ⟨Phase.exit, .mathFlowFenceSequence, 5⟩,
    ⟨Phase.exit, .mathFlowFence, 5⟩, ⟨Phase.exit, .mathFlow, 5⟩], true⟩

/-- Claim C4, witness: the non-interrupting accepted run on `\[`, line
ending, `\]` ends at the input's end, and the theorem yields its recorded
closing bracket. -/
theorem c4_amended_witness : c4ctx.found = true :=
  c4_amended.2 c4env 60 c4ctx rfl (by decide) (by decide)

/-! ### Walking the opening fence line (for C8 and C9) -/

lemma codeAt_eq_headD (input : List Code) (p : Nat) :
    codeAt input p = (input.drop p).headD Code.eof := by
  induction input generalizing p with
  | nil => simp [codeAt]
  | cons a l ih =>
    cases p with
    | zero => simp [codeAt]
    | succ q => simpa [codeAt, List.getD] using ih q

lemma codeAt_of_drop {input : List Code} {p : Nat} {x : Code} {r : List Code}
    (h : input.drop p = x :: r) : codeAt input p = x := by
  rw [codeAt_eq_headD, h]
  rfl

lemma drop_succ_of_drop {input : List Code} {p : Nat} {x : Code} {r : List Code}
    (h : input.drop p = x :: r) : input.drop (p + 1) = r := by
  rw [← List.tail_drop, h]
  rfl

/-- A code that may appear in the opening-line metadata: an ordinary
character (not `]`, not a line ending, not end of input). -/
def metaChar (x : Code) : Prop :=
  x ≠ rightSquareBracket ∧ x ≠ Code.eol ∧ x ≠ Code.eof

lemma bMeta_rejects (env : BEnv) :
    ∀ (ms rest : List Code) (c : BCtx),
      (∀ x ∈ ms, metaChar x) →
      env.input.drop c.pos = ms ++ rightSquareBracket :: rest →
      ∃ f, bMeta env f (codeAt env.input c.pos) c = .nok := by
  intro ms
  induction ms with
  | nil =>
    intro rest c _ hdrop
    refine ⟨1, ?_⟩
    have hc : codeAt env.input c.pos = rightSquareBracket :=
      codeAt_of_drop (by simpa using hdrop)
    rw [bMeta, hc, if_neg (by simp [markdownLineEnding, rightSquareBracket]), if_pos rfl]
  | cons x ms ih =>
    intro rest c hms hdrop
    obtain ⟨hx1, hx2, hx3⟩ := hms x (by simp)
    have hc : codeAt env.input c.pos = x := codeAt_of_drop (by simpa using hdrop)
    obtain ⟨f, hf⟩ := ih rest (bconsume x c)
      (fun y hy => hms y (by simp [hy]))
      (by simpa [bconsume] using drop_succ_of_drop (by simpa using hdrop))
    refine ⟨f + 1, ?_⟩
    rw [bMeta, hc, if_neg (by simp [markdownLineEnding, hx2, hx3]), if_neg hx1]
    simpa using hf

lemma bMetaBefore_rejects (env : BEnv) :
    ∀ (ms rest : List Code) (c : BCtx),
      (∀ x ∈ ms, metaChar x) →
      env.input.drop c.pos = ms ++ rightSquareBracket :: rest →
      ∃ f, bMetaBefore env f (codeAt env.input c.pos) c = .nok := by
  intro ms rest c hms hdrop
  have hcode : codeAt env.input c.pos ≠ Code.eof ∧ codeAt env.input c.pos ≠ Code.eol := by
    cases ms with
    | nil =>
      have := codeAt_of_drop (by simpa using hdrop)
      rw [this]
      simp [rightSquareBracket]
    | cons x ms =>
      have := codeAt_of_drop (p := c.pos) (by simpa using hdrop)
      rw [this]
      exact ⟨(hms x (by simp)).2.2, (hms x (by simp)).2.1⟩
  obtain ⟨f, hf⟩ := bMeta_rejects env ms rest
    (benter .chunkString (benter .mathFlowFenceMeta c)) hms (by simpa using hdrop)
  refine ⟨f + 1, ?_⟩
  rw [bMetaBefore, if_neg (by simp [markdownLineEnding, hcode.1, hcode.2])]
  simpa using hf

lemma bFsPrefix_meta_rejects (env : BEnv) :
    ∀ (k : Nat) (ms rest : List Code) (c : BCtx) (size : Nat) (t : TType),
      (∀ x ∈ ms, metaChar x) →
      (∀ y ∈ ms.take 1, markdownSpace y = false) →
      env.input.drop c.pos = List.replicate k spaceCode ++ ms ++ rightSquareBracket :: rest →
      ∃ f, bFsPrefix env f .toMetaBefore t none size (codeAt env.input c.pos) c = .nok := by
  intro k
  induction k with
  | zero =>
    intro ms rest c size t hms hms0 hdrop
    simp only [List.replicate, List.nil_append] at hdrop
    have hnotsp : markdownSpace (codeAt env.input c.pos) = false := by
      cases ms with
      | nil =>
        rw [codeAt_of_drop (by simpa using hdrop)]
        simp [markdownSpace, rightSquareBracket, spaceCode, tabCode]
      | cons x ms =>
        rw [codeAt_of_drop (p := c.pos) (by simpa using hdrop)]
        exact hms0 x (by simp)
    obtain ⟨f, hf⟩ := bMetaBefore_rejects env ms rest (bexit t c) hms (by simpa using hdrop)
    refine ⟨f + 2, ?_⟩
    rw [bFsPrefix, if_neg (by simp [hnotsp]), bDispatch]
    simpa using hf
  | succ k ih =>
    intro ms rest c size t hms hms0 hdrop
    have hc : codeAt env.input c.pos = spaceCode :=
      codeAt_of_drop (by simpa [List.replicate] using hdrop)
    obtain ⟨f, hf⟩ := ih ms rest (bconsume spaceCode c) (size + 1) t hms hms0
      (by simpa [bconsume] using drop_succ_of_drop (by simpa [List.replicate] using hdrop))
    refine ⟨f + 1, ?_⟩
    rw [bFsPrefix, hc, if_pos ⟨by simp [markdownSpace, spaceCode], rfl⟩]
    simpa using hf

lemma bFsStart_meta_rejects (env : BEnv) :
    ∀ (k : Nat) (ms rest : List Code) (c : BCtx) (t : TType),
      (∀ x ∈ ms, metaChar x) →
      (∀ y ∈ ms.take 1, markdownSpace y = false) →
      env.input.drop c.pos = List.replicate k spaceCode ++ ms ++ rightSquareBracket :: rest →
      ∃ f, bFsStart env f .toMetaBefore t none (codeAt env.input c.pos) c = .nok := by
  intro k ms rest c t hms hms0 hdrop
  cases k with
  | zero =>
    simp only [List.replicate, List.nil_append] at hdrop
    have hnotsp : markdownSpace (codeAt env.input c.pos) = false := by
      cases ms with
      | nil =>
        rw [codeAt_of_drop (by simpa using hdrop)]
        simp [markdownSpace, rightSquareBracket, spaceCode, tabCode]
      | cons x ms =>
        rw [codeAt_of_drop (p := c.pos) (by simpa using hdrop)]
        exact hms0 x (by simp)
    obtain ⟨f, hf⟩ := bMetaBefore_rejects env ms rest c hms (by simpa using hdrop)
    refine ⟨f + 2, ?_⟩
    rw [bFsStart, if_neg (by simp [hnotsp]), bDispatch]
    simpa using hf
  | succ k =>
    have hc : codeAt env.input c.pos = spaceCode :=
      codeAt_of_drop (by simpa [List.replicate] using hdrop)
    obtain ⟨f, hf⟩ := bFsPrefix_meta_rejects env (k + 1) ms rest (benter t c) 0 t hms hms0
      (by simpa using hdrop)
    refine ⟨f + 1, ?_⟩
    simp only [benter_pos] at hf
    rw [bFsStart, hc, if_pos (by simp [markdownSpace, spaceCode])]
    rw [hc] at hf
    exact hf

/-- Claim C8: a `]` anywhere in the opening-line metadata rejects the
whole block construct — for every opening line `\[` followed by optional
indentation, metadata characters, and a `]` before the line's end, the
block recognizer reaches `nok`. -/
theorem c8_meta_bracket_rejects (env : BEnv) (a : Nat) (ms rest : List Code)
    (hms : ∀ x ∈ ms, metaChar x)
    (hms0 : ∀ y ∈ ms.take 1, markdownSpace y = false)
    (henv : env.input = [backslash, leftSquareBracket] ++ List.replicate a spaceCode ++
      ms ++ rightSquareBracket :: rest) :
    ∃ f, runMathBracketFlow env f = .nok := by
  have hdrop2 : env.input.drop 2 =
      List.replicate a spaceCode ++ ms ++ rightSquareBracket :: rest := by
    rw [henv]
    rfl
  have h0 : codeAt env.input 0 = backslash := by rw [henv]; rfl
  have h1 : codeAt env.input 1 = leftSquareBracket := by rw [henv]; rfl
  obtain ⟨f, hf⟩ := bFsStart_meta_rejects env a ms rest
    (bexit .mathFlowFenceSequence (bconsume leftSquareBracket
      (bconsume (codeAt env.input 0)
        (benter .mathFlowFenceSequence (benter .mathFlowFence
          (benter .mathFlow ⟨0, env.startLine, [], false⟩)))))) .whitespace hms hms0
    (by simpa [bconsume] using hdrop2)
  refine ⟨f + 2, ?_⟩
  rw [runMathBracketFlow, bStart]
  simp only [bconsume_pos, benter_pos]
  have : codeAt env.input (0 + 1) = leftSquareBracket := by simpa using h1
  rw [bOpenBracket, this]
  simp only [if_pos rfl]
  simpa [bconsume] using hf

lemma drop_eq_nil_codeAt {input : List Code} {p : Nat} (h : input.drop p = []) :
    codeAt input p = Code.eof := by
  rw [codeAt_eq_headD, h]
  rfl

lemma bMeta_interrupt_ok (env : BEnv) (henv : env.interrupt = true) :
    ∀ (ms rest : List Code) (c : BCtx),
      (∀ x ∈ ms, metaChar x) →
      (env.input.drop c.pos = ms ++ Code.eol :: rest ∨ env.input.drop c.pos = ms) →
      ∃ f c', bMeta env f (codeAt env.input c.pos) c = .ok c' ∧
        c'.pos = c.pos + ms.length ∧ c'.found = c.found := by
  intro ms
  induction ms with
  | nil =>
    intro rest c _ hdrop
    have hcond : codeAt env.input c.pos = Code.eof ∨
        markdownLineEnding (codeAt env.input c.pos) = true := by
      rcases hdrop with h | h
      · right
        rw [codeAt_of_drop (by simpa using h)]
        rfl
      · left
        exact drop_eq_nil_codeAt h
    refine ⟨2, bexit .mathFlowFence (bexit .mathFlowFenceMeta (bexit .chunkString c)),
      ?_, by simp, by simp⟩
    rw [bMeta, if_pos hcond, bMetaAfter, henv]
    simp
  | cons x ms ih =>
    intro rest c hms hdrop
    obtain ⟨hx1, hx2, hx3⟩ := hms x (by simp)
    have hc : codeAt env.input c.pos = x := by
      rcases hdrop with h | h
      · exact codeAt_of_drop (by simpa using h)
      · exact codeAt_of_drop (by simpa using h)
    obtain ⟨f, c', hf, hpos, hfound⟩ := ih rest (bconsume x c)
      (fun y hy => hms y (by simp [hy]))
      (by
        rcases hdrop with h | h
        · exact Or.inl (by simpa [bconsume] using drop_succ_of_drop (by simpa using h))
        · exact Or.inr (by simpa [bconsume] using drop_succ_of_drop (by simpa using h)))
    refine ⟨f + 1, c', ?_, by simp [bconsume] at hpos; simp [hpos]; omega, by simpa using hfound⟩
    rw [bMeta, hc, if_neg (by simp [markdownLineEnding, hx2, hx3]), if_neg hx1]
    simpa using hf

lemma bMetaBefore_interrupt_ok (env : BEnv) (henv : env.interrupt = true) :
    ∀ (ms rest : List Code) (c : BCtx),
      (∀ x ∈ ms, metaChar x) →
      (env.input.drop c.pos = ms ++ Code.eol :: rest ∨ env.input.drop c.pos = ms) →
      ∃ f c', bMetaBefore env f (codeAt env.input c.pos) c = .ok c' ∧
        c'.pos = c.pos + ms.length ∧ c'.found = c.found := by
  intro ms rest c hms hdrop
  cases ms with
  | nil =>
    have hcond : codeAt env.input c.pos = Code.eof ∨
        markdownLineEnding (codeAt env.input c.pos) = true := by
      rcases hdrop with h | h
      · right
        rw [codeAt_of_drop (by simpa using h)]
        rfl
      · left
        exact drop_eq_nil_codeAt h
    refine ⟨2, bexit .mathFlowFence c, ?_, by simp, by simp⟩
    rw [bMetaBefore, if_pos hcond, bMetaAfter, henv]
    simp
  | cons x ms =>
    obtain ⟨hx1, hx2, hx3⟩ := hms x (by simp)
    have hc : codeAt env.input c.pos = x := by
      rcases hdrop with h | h
      · exact codeAt_of_drop (by simpa using h)
      · exact codeAt_of_drop (by simpa using h)
    obtain ⟨f, c', hf, hpos, hfound⟩ := bMeta_interrupt_ok env henv (x :: ms) rest
      (benter .chunkString (benter .mathFlowFenceMeta c)) hms (by simpa using hdrop)
    refine ⟨f + 1, c', ?_, by simpa using hpos, by simpa using hfound⟩
    rw [bMetaBefore, hc, if_neg (by simp [markdownLineEnding, hx2, hx3])]
    simp only [benter_pos] at hf
    rw [hc] at hf
    simpa using hf

lemma bFsPrefix_interrupt_ok (env : BEnv) (henv : env.interrupt = true) :
    ∀ (k : Nat) (ms rest : List Code) (c : BCtx) (size : Nat) (t : TType),
      (∀ x ∈ ms, metaChar x) →
      (∀ y ∈ ms.take 1, markdownSpace y = false) →
      (env.input.drop c.pos = List.replicate k spaceCode ++ ms ++ Code.eol :: rest ∨
        env.input.drop c.pos = List.replicate k spaceCode ++ ms) →
      ∃ f c', bFsPrefix env f .toMetaBefore t none size (codeAt env.input c.pos) c = .ok c' ∧
        c'.pos = c.pos + k + ms.length ∧ c'.found = c.found := by
  intro k
  induction k with
  | zero =>
    intro ms rest c size t hms hms0 hdrop
    simp only [List.replicate, List.nil_append] at hdrop
    have hnotsp : markdownSpace (codeAt env.input c.pos) = false := by
      cases ms with
      | nil =>
        rcases hdrop with h | h
        · rw [codeAt_of_drop (by simpa using h)]
          rfl
        · rw [drop_eq_nil_codeAt h]
          rfl
      | cons x ms =>
        have hc : codeAt env.input c.pos = x := by
          rcases hdrop with h | h
          · exact codeAt_of_drop (by simpa using h)
          · exact codeAt_of_drop (by simpa using h)
        rw [hc]
        exact hms0 x (by simp)
    obtain ⟨f, c', hf, hpos, hfound⟩ := bMetaBefore_interrupt_ok env henv ms rest
      (bexit t c) hms (by simpa using hdrop)
    refine ⟨f + 2, c', ?_, by simp at hpos; omega, by simpa using hfound⟩
    rw [bFsPrefix, if_neg (by simp [hnotsp]), bDispatch]
    simpa using hf
  | succ k ih =>
    intro ms rest c size t hms hms0 hdrop
    have hc : codeAt env.input c.pos = spaceCode := by
      rcases hdrop with h | h
      · exact codeAt_of_drop (by simpa [List.replicate] using h)
      · exact codeAt_of_drop (by simpa [List.replicate] using h)
    obtain ⟨f, c', hf, hpos, hfound⟩ := ih ms rest (bconsume spaceCode c) (size + 1) t hms hms0
      (by
        rcases hdrop with h | h
        · exact Or.inl
            (by simpa [bconsume] using drop_succ_of_drop (by simpa [List.replicate] using h))
        · exact Or.inr
            (by simpa [bconsume] using drop_succ_of_drop (by simpa [List.replicate] using h)))
    refine ⟨f + 1, c', ?_, by simp [bconsume] at hpos; omega, by simpa using hfound⟩
    rw [bFsPrefix, hc, if_pos ⟨by simp [markdownSpace, spaceCode], rfl⟩]
    simpa using hf

lemma bFsStart_interrupt_ok (env : BEnv) (henv : env.interrupt = true) :
    ∀ (k : Nat) (ms rest : List Code) (c : BCtx) (t : TType),
      (∀ x ∈ ms, metaChar x) →
      (∀ y ∈ ms.take 1, markdownSpace y = false) →
      (env.input.drop c.pos = List.replicate k spaceCode ++ ms ++ Code.eol :: rest ∨
        env.input.drop c.pos = List.replicate k spaceCode ++ ms) →
      ∃ f c', bFsStart env f .toMetaBefore t none (codeAt env.input c.pos) c = .ok c' ∧
        c'.pos = c.pos + k + ms.length ∧ c'.found = c.found := by
  intro k ms rest c t hms hms0 hdrop
  cases k with
  | zero =>
    simp only [List.replicate, List.nil_append] at hdrop
    have hnotsp : markdownSpace (codeAt env.input c.pos) = false := by
      cases ms with
      | nil =>
        rcases hdrop with h | h
        · rw [codeAt_of_drop (by simpa using h)]
          rfl
        · rw [drop_eq_nil_codeAt h]
          rfl
      | cons x ms =>
        have hc : codeAt env.input c.pos = x := by
          rcases hdrop with h | h
          · exact codeAt_of_drop (by simpa using h)
          · exact codeAt_of_drop (by simpa using h)
        rw [hc]
        exact hms0 x (by simp)
    obtain ⟨f, c', hf, hpos, hfound⟩ := bMetaBefore_interrupt_ok env henv ms rest c hms
      (by simpa using hdrop)
    refine ⟨f + 2, c', ?_, by omega, hfound⟩
    rw [bFsStart, if_neg (by simp [hnotsp]), bDispatch]
    simpa using hf
  | succ k =>
    have hc : codeAt env.input c.pos = spaceCode := by
      rcases hdrop with h | h
      · exact codeAt_of_drop (by simpa [List.replicate] using h)
      · exact codeAt_of_drop (by simpa [List.replicate] using h)
    obtain ⟨f, c', hf, hpos, hfound⟩ := bFsPrefix_interrupt_ok env henv (k + 1) ms rest
      (benter t c) 0 t hms hms0 (by simpa using hdrop)
    refine ⟨f + 1, c', ?_, by simpa using hpos, by simpa using hfound⟩
    simp only [benter_pos] at hf
    rw [bFsStart, hc, if_pos (by simp [markdownSpace, spaceCode])]
    rw [hc] at hf
    exact hf

/-- Claim C9: when the block recognizer is interrupting another block
context, it accepts right at the end of the opening fence line — after
`\[`, optional indentation and metadata, at the line ending or end of
input — with no closing fence required anywhere in the remaining input
(the final position shows nothing beyond the opening line was consumed,
and no closing bracket was recorded). -/
theorem c9_interrupt_accepts (env : BEnv) (a : Nat) (ms tail : List Code)
    (hintr : env.interrupt = true)
    (hms : ∀ x ∈ ms, metaChar x)
    (hms0 : ∀ y ∈ ms.take 1, markdownSpace y = false)
    (htail : (∃ rest, tail = Code.eol :: rest) ∨ tail = [])
    (henv : env.input = [backslash, leftSquareBracket] ++ List.replicate a spaceCode ++
      ms ++ tail) :
    ∃ f c', runMathBracketFlow env f = .ok c' ∧ c'.pos = 2 + a + ms.length ∧
      c'.found = false := by
  have hdrop2 : env.input.drop 2 = List.replicate a spaceCode ++ ms ++ tail := by
    rw [henv]
    rfl
  have h1 : codeAt env.input 1 = leftSquareBracket := by rw [henv]; rfl
  obtain ⟨f, c', hf, hpos, hfound⟩ := bFsStart_interrupt_ok env hintr a ms
    (tail.drop 1)
    (bexit .mathFlowFenceSequence (bconsume leftSquareBracket
      (bconsume (codeAt env.input 0)
        (benter .mathFlowFenceSequence (benter .mathFlowFence
          (benter .mathFlow ⟨0, env.startLine, [], false⟩)))))) .whitespace hms hms0
    (by
      rcases htail with ⟨rest, hrest⟩ | hrest
      · subst hrest
        exact Or.inl (by simpa [bconsume] using hdrop2)
      · subst hrest
        exact Or.inr (by simpa [bconsume] using hdrop2))
  refine ⟨f + 2, c', ?_, by simpa [bconsume] using hpos, by simpa using hfound⟩
  rw [runMathBracketFlow, bStart]
  simp only [bconsume_pos, benter_pos]
  have h1' : codeAt env.input (0 + 1) = leftSquareBracket := by simpa using h1
  rw [bOpenBracket, h1', if_pos rfl]
  simpa [bconsume] using hf

def c8env : BEnv :=
  ⟨[backslash, leftSquareBracket, Code.ch 97, rightSquareBracket, Code.ch 98],
    false, 0, false, [], 1⟩

/-- Claim C8, witness: the opening line `\[a]b` is rejected. -/
theorem c8_meta_bracket_rejects_witness :
    ∃ f, runMathBracketFlow c8env f = .nok :=
  c8_meta_bracket_rejects c8env 0 [Code.ch 97] [Code.ch 98]
    (by intro x hx; simp at hx; subst hx; exact ⟨by decide, by decide, by decide⟩)
    (by intro y hy; simp at hy; subst hy; decide)
    (by decide)

def c9env : BEnv :=
  ⟨[backslash, leftSquareBracket, Code.ch 109, Code.eol, Code.ch 120],
    true, 0, false, [], 1⟩

/-- Claim C9, witness: interrupting on `\[m`, line ending, `x` accepts at
position 3, before the line ending, having consumed nothing of the body. -/
theorem c9_interrupt_accepts_witness :
    ∃ f c', runMathBracketFlow c9env f = .ok c' ∧ c'.pos = 2 + 0 + [Code.ch 109].length ∧
      c'.found = false :=
  c9_interrupt_accepts c9env 0 [Code.ch 109] (Code.eol :: [Code.ch 120]) rfl
    (by intro x hx; simp at hx; subst hx; exact ⟨by decide, by decide, by decide⟩)
    (by intro y hy; simp at hy; subst hy; decide)
    (Or.inl ⟨[Code.ch 120], rfl⟩)
    (by decide)

/-! ### Stack replay lemmas (for C1) -/

@[simp] lemma nestStep_enter (st : List TType) (t : TType) (p : Nat) :
    nestStep (some st) ⟨Phase.enter, t, p⟩ = some (t :: st) := rfl

@[simp] lemma nestStep_exit_cons (t' : TType) (rest : List TType) (t : TType) (p : Nat) :
    nestStep (some (t' :: rest)) ⟨Phase.exit, t, p⟩ =
      if t' = t then some rest else none := rfl

@[simp] lemma nestStep_exit_nil (t : TType) (p : Nat) :
    nestStep (some []) ⟨Phase.exit, t, p⟩ = none := rfl

@[simp] lemma nestStep_none (e : Ev) : nestStep none e = none := by
  obtain ⟨ph, t, p⟩ := e
  cases ph <;> rfl

@[simp] lemma nestCheck_append (evs l : List Ev) :
    nestCheck (evs ++ l) = l.foldl nestStep (nestCheck evs) := by
  simp [nestCheck, List.foldl_append]

/-- The non-lazy continuation attempt preserves the replay stack. -/
lemma runNonLazy_nest {env : BEnv} {code : Code} {c c1 : BCtx}
    (h : runNonLazy env code c = some c1) :
    nestCheck c1.evs = nestCheck c.evs := by
  unfold runNonLazy at h
  split at h
  · simp at h
    subst h
    rfl
  · by_cases hl :
      (bexit .lineEnding (bconsume code (benter .lineEnding c))).line ∈ env.lazy
    · simp [hl] at h
    · simp [hl] at h
      obtain ⟨-, rfl⟩ := h
      rcases hn : nestCheck c.evs with _ | st <;> simp [hn]

/-- Stack expected by the closing-fence tokenizer's `factorySpace`
continuation. -/
def cfPre (tgt : CFTgt) (σ : List TType) : List TType :=
  match tgt with
  | .beforeSeqClose => σ
  | .afterSeqClose => .mathFlowFence :: σ

lemma cf_nest (env : BEnv) :
    ∀ fuel : Nat,
      (∀ tgt t max code foundB c c1 σ, nestCheck c.evs = some (cfPre tgt σ) →
        cfFsStart env fuel tgt t max code foundB c = .ok c1 → nestCheck c1.evs = some σ) ∧
      (∀ tgt t max size code foundB c c1 σ, nestCheck c.evs = some (t :: cfPre tgt σ) →
        cfFsPrefix env fuel tgt t max size code foundB c = .ok c1 → nestCheck c1.evs = some σ) ∧
      (∀ tgt code foundB c c1 σ, nestCheck c.evs = some (cfPre tgt σ) →
        cfDispatch env fuel tgt code foundB c = .ok c1 → nestCheck c1.evs = some σ) ∧
      (∀ code foundB c c1 σ, nestCheck c.evs = some σ →
        cfBeforeSequenceClose env fuel code foundB c = .ok c1 → nestCheck c1.evs = some σ) ∧
      (∀ code foundB c c1 σ,
        nestCheck c.evs = some (TType.mathFlowFenceSequence :: TType.mathFlowFence :: σ) →
        cfSequenceClose env fuel code foundB c = .ok c1 → nestCheck c1.evs = some σ) ∧
      (∀ code foundB c c1 σ, nestCheck c.evs = some (TType.mathFlowFence :: σ) →
        cfAfterSequenceClose env fuel code foundB c = .ok c1 → nestCheck c1.evs = some σ) := by
  intro fuel
  induction fuel with
  | zero =>
    refine ⟨?_, ?_, ?_, ?_, ?_, ?_⟩ <;> intros <;>
      simp_all [cfFsStart, cfFsPrefix, cfDispatch, cfBeforeSequenceClose, cfSequenceClose,
        cfAfterSequenceClose]
  | succ f ih =>
    obtain ⟨ihS, ihP, ihD, ihB, ihQ, ihA⟩ := ih
    refine ⟨?_, ?_, ?_, ?_, ?_, ?_⟩
    · intro tgt t max code foundB c c1 σ hst h
      simp only [cfFsStart] at h
      split at h
      · exact ihP _ _ _ _ _ _ _ _ σ (by simp [hst]) h
      · exact ihD _ _ _ _ _ σ hst h
    · intro tgt t max size code foundB c c1 σ hst h
      simp only [cfFsPrefix] at h
      split at h
      · exact ihP _ _ _ _ _ _ _ _ σ (by simpa using hst) h
      · refine ihD _ _ _ _ _ σ ?_ h
        simp [hst]
    · intro tgt code foundB c c1 σ hst h
      match tgt with
      | .beforeSeqClose =>
        simp only [cfDispatch] at h
        exact ihB _ _ _ _ σ hst h
      | .afterSeqClose =>
        simp only [cfDispatch] at h
        exact ihA _ _ _ _ σ hst h
    · intro code foundB c c1 σ hst h
      simp only [cfBeforeSequenceClose] at h
      exact ihQ _ _ _ _ σ (by simp [hst]) h
    · intro code foundB c c1 σ hst h
      simp only [cfSequenceClose] at h
      split at h
      · exact ihQ _ _ _ _ σ (by simpa using hst) h
      · split at h
        · exact ihS _ _ _ _ _ _ _ σ (by simp [hst, cfPre]) h
        · simp at h
    · intro code foundB c c1 σ hst h
      simp only [cfAfterSequenceClose] at h
      split at h
      · simp only [CFRes.ok.injEq] at h
        subst h
        simp [hst]
      · simp at h

/-- The closing-fence attempt preserves the replay stack when it
commits. -/
lemma runClosingFence_nest {env : BEnv} {fuel : Nat} {code : Code} {c c1 : BCtx}
    {σ : List TType} (hst : nestCheck c.evs = some σ)
    (h : runClosingFence env fuel code c = .ok c1) : nestCheck c1.evs = some σ :=
  (cf_nest env fuel).1 .beforeSeqClose _ _ _ _ _ _ σ hst h

/-- Stack expected at each state of the main flow tokenizer's
`factorySpace` continuations. -/
def bPre (tgt : BTgt) : List TType :=
  match tgt with
  | .toMetaBefore => [.mathFlowFence, .mathFlow]
  | .toBeforeContentChunk => [.mathFlow]

lemma block_nest (env : BEnv) (henv : env.interrupt = false) :
    ∀ fuel : Nat,
      (∀ code c c', nestCheck c.evs = some [] →
        bStart env fuel code c = .ok c' → nestCheck c'.evs = some []) ∧
      (∀ code c c', nestCheck c.evs = some [.mathFlowFenceSequence, .mathFlowFence, .mathFlow] →
        bOpenBracket env fuel code c = .ok c' → nestCheck c'.evs = some []) ∧
      (∀ tgt t max code c c', nestCheck c.evs = some (bPre tgt) →
        bFsStart env fuel tgt t max code c = .ok c' → nestCheck c'.evs = some []) ∧
      (∀ tgt t max size code c c', nestCheck c.evs = some (t :: bPre tgt) →
        bFsPrefix env fuel tgt t max size code c = .ok c' → nestCheck c'.evs = some []) ∧
      (∀ tgt code c c', nestCheck c.evs = some (bPre tgt) →
        bDispatch env fuel tgt code c = .ok c' → nestCheck c'.evs = some []) ∧
      (∀ code c c', nestCheck c.evs = some [.mathFlowFence, .mathFlow] →
        bMetaBefore env fuel code c = .ok c' → nestCheck c'.evs = some []) ∧
      (∀ code c c', nestCheck c.evs =
          some [.chunkString, .mathFlowFenceMeta, .mathFlowFence, .mathFlow] →
        bMeta env fuel code c = .ok c' → nestCheck c'.evs = some []) ∧
      (∀ code c c', nestCheck c.evs = some [.mathFlowFence, .mathFlow] →
        bMetaAfter env fuel code c = .ok c' → nestCheck c'.evs = some []) ∧
      (∀ code c c', nestCheck c.evs = some [.mathFlow] →
        bBeforeNonLazyContinuation env fuel code c = .ok c' → nestCheck c'.evs = some []) ∧
      (∀ code c c', nestCheck c.evs = some [.mathFlow] →
        bContentStart env fuel code c = .ok c' → nestCheck c'.evs = some []) ∧
      (∀ code c c', nestCheck c.evs = some [.mathFlow] →
        bBeforeContentChunk env fuel code c = .ok c' → nestCheck c'.evs = some []) ∧
      (∀ code c c', nestCheck c.evs = some [.mathFlowValue, .mathFlow] →
        bContentChunk env fuel code c = .ok c' → nestCheck c'.evs = some []) ∧
      (∀ code c c', nestCheck c.evs = some [.mathFlow] →
        bAfter env fuel code c = .ok c' → nestCheck c'.evs = some []) := by
  intro fuel
  induction fuel with
  | zero =>
    refine ⟨?_, ?_, ?_, ?_, ?_, ?_, ?_, ?_, ?_, ?_, ?_, ?_, ?_⟩ <;> intros <;>
      simp_all [bStart, bOpenBracket, bFsStart, bFsPrefix, bDispatch, bMetaBefore, bMeta,
        bMetaAfter, bBeforeNonLazyContinuation, bContentStart, bBeforeContentChunk,
        bContentChunk, bAfter]
  | succ f ih =>
    obtain ⟨ihStart, ihOpen, ihFsS, ihFsP, ihDisp, ihMetaB, ihMeta, ihMetaA,
      ihBNL, ihCS, ihBCC, ihCC, ihAfter⟩ := ih
    refine ⟨?_, ?_, ?_, ?_, ?_, ?_, ?_, ?_, ?_, ?_, ?_, ?_, ?_⟩
    · intro code c c' hst h
      simp only [bStart] at h
      exact ihOpen _ _ _ (by simp [hst]) h
    · intro code c c' hst h
      simp only [bOpenBracket] at h
      split at h
      · exact ihFsS .toMetaBefore _ _ _ _ _ (by simp [hst, bPre]) h
      · simp at h
    · intro tgt t max code c c' hst h
      simp only [bFsStart] at h
      split at h
      · exact ihFsP _ _ _ _ _ _ _ (by simp [hst]) h
      · exact ihDisp _ _ _ _ hst h
    · intro tgt t max size code c c' hst h
      simp only [bFsPrefix] at h
      split at h
      · exact ihFsP _ _ _ _ _ _ _ (by simpa using hst) h
      · exact ihDisp _ _ _ _ (by simp [hst]) h
    · intro tgt code c c' hst h
      match tgt with
      | .toMetaBefore =>
        simp only [bDispatch] at h
        exact ihMetaB _ _ _ hst h
      | .toBeforeContentChunk =>
        simp only [bDispatch] at h
        exact ihBCC _ _ _ hst h
    · intro code c c' hst h
      simp only [bMetaBefore] at h
      split at h
      · exact ihMetaA _ _ _ hst h
      · exact ihMeta _ _ _ (by simp [hst]) h
    · intro code c c' hst h
      simp only [bMeta] at h
      split at h
      · exact ihMetaA _ _ _ (by simp [hst]) h
      · split at h
        · simp at h
        · exact ihMeta _ _ _ (by simpa using hst) h
    · intro code c c' hst h
      simp only [bMetaAfter, henv] at h
      simp only [if_false, Bool.false_eq_true] at h
      rcases hnl : runNonLazy env code (bexit .mathFlowFence c) with _ | c1
      · rw [hnl] at h
        exact ihAfter _ _ _ (by simp [hst]) h
      · rw [hnl] at h
        refine ihBNL _ _ _ ?_ h
        rw [runNonLazy_nest hnl]
        simp [hst]
    · intro code c c' hst h
      simp only [bBeforeNonLazyContinuation] at h
      rcases hcf : runClosingFence env f code c with c1 | fd | _
      · rw [hcf] at h
        exact ihAfter _ _ _ (runClosingFence_nest hst hcf) h
      · rw [hcf] at h
        exact ihCS _ _ _ (by simpa using hst) h
      · rw [hcf] at h
        simp at h
    · intro code c c' hst h
      simp only [bContentStart] at h
      split at h
      · exact ihFsS .toBeforeContentChunk _ _ _ _ _ (by simpa [bPre] using hst) h
      · exact ihBCC _ _ _ hst h
    · intro code c c' hst h
      simp only [bBeforeContentChunk] at h
      split at h
      · exact ihAfter _ _ _ hst h
      · split at h
        · rcases hnl : runNonLazy env code c with _ | c1
          · rw [hnl] at h
            exact ihAfter _ _ _ hst h
          · rw [hnl] at h
            refine ihBNL _ _ _ ?_ h
            rw [runNonLazy_nest hnl, hst]
        · exact ihCC _ _ _ (by simp [hst]) h
    · intro code c c' hst h
      simp only [bContentChunk] at h
      split at h
      · exact ihBCC _ _ _ (by simp [hst]) h
      · exact ihCC _ _ _ (by simpa using hst) h
    · intro code c c' hst h
      simp only [bAfter] at h
      split at h
      · simp at h
      · simp only [BRes.ok.injEq] at h
        subst h
        simp [hst]

/-- On a content body with no interior backslash (and the input not yet
exhausted), the inline recognizer accepts at the closing `\)` and its
event stream replays to an empty stack. -/
lemma inline_clean (input : List Code) :
    ∀ n : Nat, ∀ body rest : List Code, body.length = n →
      (∀ x ∈ body, x ≠ backslash ∧ x ≠ Code.eof) →
      (∀ c : ICtx, input.drop c.pos = body ++ backslash :: rightParenthesis :: rest →
        nestCheck c.evs = some [TType.mathText] →
        ∃ f c', iBetween input f (codeAt input c.pos) c = .ok c' ∧
          nestCheck c'.evs = some []) ∧
      (∀ c : ICtx, input.drop c.pos = body ++ backslash :: rightParenthesis :: rest →
        nestCheck c.evs = some [TType.mathTextData, TType.mathText] →
        ∃ f c', iData input f (codeAt input c.pos) c = .ok c' ∧
          nestCheck c'.evs = some []) := by
  intro n
  induction n using Nat.strong_induction_on with
  | _ n ih =>
    intro body rest hlen hbody
    have Hb : ∀ c : ICtx, input.drop c.pos = body ++ backslash :: rightParenthesis :: rest →
        nestCheck c.evs = some [TType.mathText] →
        ∃ f c', iBetween input f (codeAt input c.pos) c = .ok c' ∧
          nestCheck c'.evs = some [] := by
      intro c hdrop hst
      cases body with
      | nil =>
        have hc : codeAt input c.pos = backslash := codeAt_of_drop (by simpa using hdrop)
        have hc2 : codeAt input (c.pos + 1) = rightParenthesis :=
          codeAt_of_drop (drop_succ_of_drop (by simpa using hdrop))
        refine ⟨2, iexit .mathText (iexit .mathTextSequence
          (iconsume {iconsume (ienter .mathTextSequence c) with foundClosingParen := true})),
          ?_, ?_⟩
        · rw [iBetween, hc, if_neg (by simp [backslash]), if_pos rfl]
          rw [iCloseParenthesis,
            show (iconsume (ienter .mathTextSequence c)).pos = c.pos + 1 from rfl, hc2,
            if_pos rfl]
          rfl
        · simp [ienter, iexit, iconsume, hst]
      | cons x body' =>
        obtain ⟨hx1, hx2⟩ := hbody x (by simp)
        have hc : codeAt input c.pos = x := codeAt_of_drop (by simpa using hdrop)
        by_cases hsp : x = spaceCode
        · subst hsp
          obtain ⟨f, c', hok, hst'⟩ := (ih (body'.length) (by simp [← hlen]) body' rest rfl
              (fun y hy => hbody y (by simp [hy]))).1
            (iexit .space (iconsume (ienter .space c)))
            (by simpa using drop_succ_of_drop (by simpa using hdrop))
            (by simp [hst])
          refine ⟨f + 1, c', ?_, hst'⟩
          rw [iBetween, hc, if_neg (by simp [spaceCode]),
            if_neg (by simp [spaceCode, backslash]), if_pos rfl]
          simpa using hok
        · by_cases hle : x = Code.eol
          · subst hle
            obtain ⟨f, c', hok, hst'⟩ := (ih (body'.length) (by simp [← hlen]) body' rest rfl
                (fun y hy => hbody y (by simp [hy]))).1
              (iexit .lineEnding (iconsume (ienter .lineEnding c)))
              (by simpa using drop_succ_of_drop (by simpa using hdrop))
              (by simp [hst])
            refine ⟨f + 1, c', ?_, hst'⟩
            rw [iBetween, hc, if_neg (by simp), if_neg (by simp [backslash]),
              if_neg (by simp [spaceCode]), if_pos (by simp [markdownLineEnding])]
            simpa using hok
          · obtain ⟨f, c', hok, hst'⟩ := (ih (body'.length) (by simp [← hlen]) body' rest rfl
                (fun y hy => hbody y (by simp [hy]))).2
              (iconsume (ienter .mathTextData c))
              (by simpa using drop_succ_of_drop (by simpa using hdrop))
              (by simp [hst])
            refine ⟨f + 2, c', ?_, hst'⟩
            rw [iBetween, hc, if_neg hx2, if_neg hx1, if_neg hsp,
              if_neg (by simp [markdownLineEnding, hle] : ¬markdownLineEnding x = true)]
            rw [iData, if_neg (by simp [hx2, hx1, hsp, hle, markdownLineEnding])]
            simpa using hok
    refine ⟨Hb, ?_⟩
    intro c hdrop hst
    cases body with
    | nil =>
      have hc : codeAt input c.pos = backslash := codeAt_of_drop (by simpa using hdrop)
      obtain ⟨f, c', hok, hst'⟩ := Hb (iexit .mathTextData c) (by simpa using hdrop)
        (by simp [hst])
      refine ⟨f + 1, c', ?_, hst'⟩
      rw [iData, if_pos (by simp [hc])]
      simpa using hok
    | cons x body' =>
      obtain ⟨hx1, hx2⟩ := hbody x (by simp)
      have hc : codeAt input c.pos = x := codeAt_of_drop (by simpa using hdrop)
      by_cases hterm : x = spaceCode ∨ x = Code.eol
      · obtain ⟨f, c', hok, hst'⟩ := Hb (iexit .mathTextData c) (by simpa using hdrop)
          (by simp [hst])
        refine ⟨f + 1, c', ?_, hst'⟩
        rw [iData, if_pos (by rcases hterm with h | h <;> simp [hc, h, markdownLineEnding])]
        simpa using hok
      · push_neg at hterm
        obtain ⟨f, c', hok, hst'⟩ := (ih (body'.length) (by simp [← hlen]) body' rest rfl
            (fun y hy => hbody y (by simp [hy]))).2
          (iconsume c)
          (by simpa using drop_succ_of_drop (by simpa using hdrop))
          (by simpa using hst)
        refine ⟨f + 1, c', ?_, hst'⟩
        rw [iData, hc,
          if_neg (by simp [hx1, hx2, hterm.1, hterm.2, markdownLineEnding])]
        simpa using hok

/-- Claim C1, counterexample: the claim fails on exactly the two paths it
singles out.  The inline degrade path: `\(\ab\)` is accepted but its
stream enters `mathTextData` inside the open `mathTextSequence` and then
exits `mathTextSequence` first, so the replay fails (the exit does not
close the most recently opened unmatched enter).  The block interrupt
path: `\[` with `interrupt` set is accepted with the `mathFlow` enter
never closed. -/
theorem c1_counterexample :
    runMathText 50 [backslash, leftParenthesis, backslash, Code.ch 97, Code.ch 98,
      backslash, rightParenthesis] =
      .ok ⟨7, [⟨Phase.enter, .mathText, 0⟩, ⟨Phase.enter, .mathTextSequence, 0⟩,
        ⟨Phase.exit, .mathTextSequence, 2⟩, ⟨Phase.enter, .mathTextSequence, 2⟩,
        ⟨Phase.enter, .mathTextData, 3⟩, ⟨Phase.exit, .mathTextSequence, 4⟩,
        ⟨Phase.exit, .mathTextData, 5⟩, ⟨Phase.enter, .mathTextSequence, 5⟩,
        ⟨Phase.exit, .mathTextSequence, 7⟩, ⟨Phase.exit, .mathText, 7⟩], true⟩ ∧
    wellNested [⟨Phase.enter, .mathText, 0⟩, ⟨Phase.enter, .mathTextSequence, 0⟩,
        ⟨Phase.exit, .mathTextSequence, 2⟩, ⟨Phase.enter, .mathTextSequence, 2⟩,
        ⟨Phase.enter, .mathTextData, 3⟩, ⟨Phase.exit, .mathTextSequence, 4⟩,
        ⟨Phase.exit, .mathTextData, 5⟩, ⟨Phase.enter, .mathTextSequence, 5⟩,
        ⟨Phase.exit, .mathTextSequence, 7⟩, ⟨Phase.exit, .mathText, 7⟩] = false ∧
    runMathBracketFlow ⟨[backslash, leftSquareBracket], true, 0, false, [], 1⟩ 60 =
      .ok ⟨2, 1, [⟨Phase.enter, .mathFlow, 0⟩, ⟨Phase.enter, .mathFlowFence, 0⟩,
        ⟨Phase.enter, .mathFlowFenceSequence, 0⟩, ⟨Phase.exit, .mathFlowFenceSequence, 2⟩,
        ⟨Phase.exit, .mathFlowFence, 2⟩], false⟩ ∧
    wellNested [⟨Phase.enter, .mathFlow, 0⟩, ⟨Phase.enter, .mathFlowFence, 0⟩,
        ⟨Phase.enter, .mathFlowFenceSequence, 0⟩, ⟨Phase.exit, .mathFlowFenceSequence, 2⟩,
        ⟨Phase.exit, .mathFlowFence, 2⟩] = false := by
  refine ⟨by decide, by decide, by decide, by decide⟩

/-- Claim C1, amended: the emitted event stream of an accepted run is a
well-nested bracketing except on the two paths the original claim singled
out.  Positively: every inline run on `\(`, a body free of backslashes,
`\)` accepts with a well-nested stream, and every accepted run of the
block recognizer that is not interrupting has a well-nested stream.  On
the inline degrade path the stream is not well nested (an exit of
`mathTextSequence` is emitted while `mathTextData` is open), and on the
block interrupt path `mathFlow`'s enter is never closed (see the
counterexample). -/
theorem c1_amended :
    (∀ (body rest : List Code), (∀ x ∈ body, x ≠ backslash ∧ x ≠ Code.eof) →
      ∃ f c', runMathText f ([backslash, leftParenthesis] ++ body ++
        backslash :: rightParenthesis :: rest) = .ok c' ∧ wellNested c'.evs = true) ∧
    (∀ (env : BEnv) (fuel : Nat) (c : BCtx), env.interrupt = false →
      runMathBracketFlow env fuel = .ok c → wellNested c.evs = true) := by
  constructor
  · intro body rest hbody
    obtain ⟨f, c', hok, hst⟩ :=
      (inline_clean ([backslash, leftParenthesis] ++ body ++
          backslash :: rightParenthesis :: rest) body.length body rest rfl hbody).1
        (iexit .mathTextSequence (iconsume (iconsume
          (ienter .mathTextSequence (ienter .mathText ⟨0, [], false⟩)))))
        (by rfl) (by decide)
    refine ⟨f + 2, c', ?_, by simp [wellNested, hst]⟩
    rw [runMathText, iStart]
    rw [iOpenParenthesis,
      show codeAt ([backslash, leftParenthesis] ++ body ++
        backslash :: rightParenthesis :: rest)
        ((iconsume (ienter .mathTextSequence
          (ienter .mathText (⟨0, [], false⟩ : ICtx)))).pos) = leftParenthesis from rfl,
      if_pos rfl]
    simpa using hok
  · intro env fuel c henv h
    simp only [runMathBracketFlow] at h
    have := (block_nest env henv fuel).1 (codeAt env.input 0)
      ⟨0, env.startLine, [], false⟩ c rfl h
    simp [wellNested, this]

def c1bctx : BCtx :=
  ⟨5, 2, [⟨Phase.enter, .mathFlow, 0⟩, ⟨Phase.enter, .mathFlowFence, 0⟩,
    ⟨Phase.enter, .mathFlowFenceSequence, 0⟩, ⟨Phase.exit, .mathFlowFenceSequence, 2⟩,
    ⟨Phase.exit, .mathFlowFence, 2⟩, ⟨Phase.enter, .lineEnding, 2⟩,
    ⟨Phase.exit, .lineEnding, 3⟩, ⟨Phase.enter, .mathFlowFence, 3⟩,
    ⟨Phase.enter, .mathFlowFenceSequence, 3⟩, ⟨Phase.exit, .mathFlowFenceSequence, 5⟩,
    ⟨Phase.exit, .mathFlowFence, 5⟩, ⟨Phase.exit, .mathFlow, 5⟩], true⟩

/-- Claim C1, witness for the amended theorem: `\(a\)` accepts with a
well-nested stream, and so does the non-interrupting block run on `\[`,
line ending, `\]`. -/
theorem c1_amended_witness :
    (∃ f c', runMathText f ([backslash, leftParenthesis] ++ [Code.ch 97] ++
      backslash :: rightParenthesis :: []) = .ok c' ∧ wellNested c'.evs = true) ∧
    wellNested c1bctx.evs = true :=
  ⟨c1_amended.1 [Code.ch 97] []
      (by intro x hx; simp at hx; subst hx; exact ⟨by decide, by decide⟩),
    c1_amended.2 ⟨[backslash, leftSquareBracket, Code.eol, backslash, rightSquareBracket],
        false, 0, false, [], 1⟩ 60 c1bctx rfl (by decide)⟩

/-! ### Store access lemmas (for the resolver proofs) -/

def junkREv : REv := (Phase.enter, 0)

lemma lookupTok_set_self {store : List RToken} {t : Nat} (h : t < store.length)
    (v : RToken) : lookupTok (store.set t v) t = v := by
  simp [lookupTok, List.getD, List.getElem?_set_self', h]

lemma lookupTok_set_ne {store : List RToken} {t u : Nat} (h : u ≠ t) (v : RToken) :
    lookupTok (store.set u v) t = lookupTok store t := by
  simp [lookupTok, List.getD, List.getElem?_set_ne h]

lemma set_lookupTok_self {store : List RToken} {t : Nat} (h : t < store.length) :
    store.set t (lookupTok store t) = store := by
  have hv : lookupTok store t = store[t] := by
    simp [lookupTok, List.getD, List.getElem?_eq_getElem h]
  rw [hv]
  apply List.ext_getElem
  · simp
  · intro n h1 h2
    rw [List.getElem_set]
    split
    · subst ‹t = n›
      rfl
    · rfl

/-- Tokens stored as given: every pair's id is in bounds and maps to its
token. -/
def Stored (store : List RToken) (pairs : List (Nat × RToken)) : Prop :=
  ∀ p ∈ pairs, p.1 < store.length ∧ lookupTok store p.1 = p.2

/-- Write a list of id/token pairs into the store, left to right. -/
def applyPairs (store : List RToken) (ps : List (Nat × RToken)) : List RToken :=
  ps.foldl (fun s p => s.set p.1 p.2) store

@[simp] lemma applyPairs_nil (store : List RToken) : applyPairs store [] = store := rfl

@[simp] lemma applyPairs_cons (store : List RToken) (p : Nat × RToken)
    (ps : List (Nat × RToken)) :
    applyPairs store (p :: ps) = applyPairs (store.set p.1 p.2) ps := rfl

lemma applyPairs_append (store : List RToken) (l1 l2 : List (Nat × RToken)) :
    applyPairs store (l1 ++ l2) = applyPairs (applyPairs store l1) l2 := by
  simp [applyPairs, List.foldl_append]

lemma applyPairs_length (store : List RToken) (ps : List (Nat × RToken)) :
    (applyPairs store ps).length = store.length := by
  induction ps generalizing store with
  | nil => rfl
  | cons p ps ih => simp [ih]

lemma lookupTok_applyPairs_notin {store : List RToken} {ps : List (Nat × RToken)}
    {t : Nat} (h : t ∉ ps.map (·.1)) :
    lookupTok (applyPairs store ps) t = lookupTok store t := by
  induction ps generalizing store with
  | nil => rfl
  | cons p ps ih =>
    rw [List.map_cons, List.mem_cons, not_or] at h
    rw [applyPairs_cons, ih h.2, lookupTok_set_ne (fun hh => h.1 hh.symm)]

lemma applyPairs_set_comm {store : List RToken} {ps : List (Nat × RToken)}
    {t : Nat} (v : RToken) (h : t ∉ ps.map (·.1)) :
    applyPairs (store.set t v) ps = (applyPairs store ps).set t v := by
  induction ps generalizing store with
  | nil => rfl
  | cons p ps ih =>
    rw [List.map_cons, List.mem_cons, not_or] at h
    rw [applyPairs_cons, applyPairs_cons, List.set_comm _ _ _ h.1, ih h.2]

lemma applyPairs_stored {store : List RToken} {ps : List (Nat × RToken)}
    (hnd : (ps.map (·.1)).Nodup) (hlt : ∀ p ∈ ps, p.1 < store.length) :
    Stored (applyPairs store ps) ps := by
  induction ps generalizing store with
  | nil => exact fun p hp => by simp at hp
  | cons p ps ih =>
    rw [List.map_cons, List.nodup_cons] at hnd
    intro q hq
    rcases List.mem_cons.1 hq with rfl | hq
    · refine ⟨?_, ?_⟩
      · rw [applyPairs_cons, applyPairs_length, List.length_set]
        exact hlt q (by simp)
      · rw [applyPairs_cons, lookupTok_applyPairs_notin hnd.1,
          lookupTok_set_self (hlt q (by simp))]
    · exact ih hnd.2
        (fun r hr => by rw [List.length_set]; exact hlt r (by simp [hr])) q hq

lemma applyPairs_id {store : List RToken} {ps : List (Nat × RToken)}
    (h : Stored store ps) : applyPairs store ps = store := by
  induction ps generalizing store with
  | nil => rfl
  | cons p ps ih =>
    obtain ⟨hlt, hlook⟩ := h p (by simp)
    rw [applyPairs_cons, ← hlook, set_lookupTok_self hlt, ih]
    intro q hq
    exact h q (by simp [hq])

end MathBrackets
